import Mathlib

/-!
Verification of the vibegrep core (src/vibegrep/__init__.py): chunking,
batch packing, LLM dispatch with retry, reconciliation of response text to
source lines, and per-batch result reporting.

Python text is modelled as `List Char`.  Python `str.splitlines` /
`str.strip` are modelled with explicit line-break and whitespace character
sets following the Python documentation.
-/

set_option maxHeartbeats 1000000

namespace Vibegrep

/-- Python text is a list of characters. -/
abbrev PyStr := List Char

/-- Line-boundary characters of Python `str.splitlines`
(`\n \r \v \f \x1c \x1d \x1e \x85    `; `\r\n` is handled as a
single boundary in the split functions). -/
def isLineBreak (c : Char) : Bool :=
  c = '\n' ∨ c = '\r' ∨ c = '\x0b' ∨ c = '\x0c' ∨ c = '\x1c' ∨ c = '\x1d' ∨
  c = '\x1e' ∨ c = '\x85' ∨ c = ' ' ∨ c = ' '

/-- Whitespace characters of Python `str.strip()` (the `str.isspace` set:
ASCII whitespace, the line-break set, and the common Unicode spaces). -/
def isPySpace (c : Char) : Bool :=
  isLineBreak c ∨ c = ' ' ∨ c = '\t' ∨ c = '\x1f' ∨ c = '\xa0' ∨
  c = ' ' ∨ (' ' ≤ c ∧ c ≤ ' ') ∨ c = ' ' ∨
  c = ' ' ∨ c = '　'

/-- Python `s.strip()`: remove leading and trailing whitespace. -/
def pyStrip (s : PyStr) : PyStr :=
  ((s.dropWhile isPySpace).reverse.dropWhile isPySpace).reverse

/-- Worker for `str.splitlines(keepends=True)`: `acc` holds the current
(unterminated) line reversed. -/
def splitKeepAux : List Char → List Char → List PyStr
  | [], acc => if acc.isEmpty then [] else [acc.reverse]
  | '\r' :: '\n' :: rest, acc => (acc.reverse ++ ['\r', '\n']) :: splitKeepAux rest []
  | c :: rest, acc =>
    if isLineBreak c then (acc.reverse ++ [c]) :: splitKeepAux rest []
    else splitKeepAux rest (c :: acc)

/-- Python `s.splitlines(keepends=True)`. -/
def pySplitlinesKeep (s : PyStr) : List PyStr := splitKeepAux s []

/-- Worker for `str.splitlines()` (line terminators dropped). -/
def splitAux : List Char → List Char → List PyStr
  | [], acc => if acc.isEmpty then [] else [acc.reverse]
  | '\r' :: '\n' :: rest, acc => acc.reverse :: splitAux rest []
  | c :: rest, acc =>
    if isLineBreak c then acc.reverse :: splitAux rest []
    else splitAux rest (c :: acc)

/-- Python `s.splitlines()`. -/
def pySplitlines (s : PyStr) : List PyStr := splitAux s []

theorem splitKeepAux_flatten (s acc : List Char) :
    (splitKeepAux s acc).flatten = acc.reverse ++ s := by
  induction s, acc using splitKeepAux.induct with
  | case1 acc h => simp [splitKeepAux, h, List.isEmpty_iff.mp h]
  | case2 acc h => simp [splitKeepAux, h]
  | case3 rest acc ih => simp [splitKeepAux, ih]
  | case4 c rest acc h1 h2 ih =>
      rw [splitKeepAux.eq_3 acc c rest (fun r hc hr => h1 r hc hr)]
      simp [h2, ih]
  | case5 c rest acc h1 h2 ih =>
      rw [splitKeepAux.eq_3 acc c rest (fun r hc hr => h1 r hc hr)]
      simp [h2, ih]

/-- Concatenating the `keepends` lines reproduces the text. -/
theorem pySplitlinesKeep_flatten (s : PyStr) : (pySplitlinesKeep s).flatten = s := by
  simpa using splitKeepAux_flatten s []

theorem splitKeepAux_ne_nil (s acc : List Char) :
    ∀ l ∈ splitKeepAux s acc, l ≠ [] := by
  induction s, acc using splitKeepAux.induct with
  | case1 acc h => simp [splitKeepAux, h]
  | case2 acc h =>
      intro l hl
      simp [splitKeepAux, h] at hl
      subst hl
      simp only [ne_eq, List.reverse_eq_nil_iff]
      intro hnil
      exact h (by simp [hnil])
  | case3 rest acc ih =>
      intro l hl
      rcases (by simpa [splitKeepAux] using hl :
          l = acc.reverse ++ ['\r', '\n'] ∨ l ∈ splitKeepAux rest []) with h | h
      · subst h; simp
      · exact ih l h
  | case4 c rest acc h1 h2 ih =>
      intro l hl
      rw [splitKeepAux.eq_3 acc c rest (fun r hc hr => h1 r hc hr)] at hl
      rcases (by simpa [h2] using hl :
          l = acc.reverse ++ [c] ∨ l ∈ splitKeepAux rest []) with h | h
      · subst h; simp
      · exact ih l h
  | case5 c rest acc h1 h2 ih =>
      intro l hl
      rw [splitKeepAux.eq_3 acc c rest (fun r hc hr => h1 r hc hr)] at hl
      exact ih l (by simpa [h2] using hl)

/-! ## Chunker (`chunk_file`, `rel_from_label`) -/

/-- `MAX_CHARS` from the source (size budget per chunk/batch). -/
def MAX_CHARS : Nat := 20000

/-- A `(label, content, line_offset)` chunk tuple. -/
structure Chunk where
  label : PyStr
  text : PyStr
  lineOffset : Nat
deriving DecidableEq, Repr

/-- The label `f"{rel}[{start+1}:]"` of a non-initial chunk. -/
def chunkLabel (rel : PyStr) (start : Nat) : PyStr :=
  rel ++ '[' :: (Nat.toDigits 10 (start + 1) ++ [':', ']'])

/-- Loop state of `chunk_file`: emitted chunks, current line group, its total
length, and the index of its first line. -/
structure ChState where
  chunks : List Chunk
  cur : List PyStr
  cur_len : Nat
  start : Nat
deriving Repr

/-- One iteration of the `for i, line in enumerate(lines)` loop of
`chunk_file`. -/
def chunkStep (rel : PyStr) (i : Nat) (line : PyStr) (st : ChState) : ChState :=
  if MAX_CHARS < st.cur_len + line.length ∧ st.cur ≠ [] then
    { chunks := st.chunks ++ [⟨chunkLabel rel st.start, st.cur.flatten, st.start⟩],
      cur := [line], cur_len := line.length, start := i }
  else
    { st with cur := st.cur ++ [line], cur_len := st.cur_len + line.length }

/-- The whole enumeration loop of `chunk_file`. -/
def chunkLoop (rel : PyStr) : Nat → List PyStr → ChState → ChState
  | _, [], st => st
  | i, l :: ls, st => chunkLoop rel (i + 1) ls (chunkStep rel i l st)

/-- The `if cur: chunks.append(...)` epilogue of `chunk_file`. -/
def chunkFinal (rel : PyStr) (st : ChState) : List Chunk :=
  if st.cur ≠ [] then
    st.chunks ++
      [⟨if 0 < st.start then chunkLabel rel st.start else rel, st.cur.flatten, st.start⟩]
  else st.chunks

/-- `chunk_file(rel, content)` from the source: small files become a single
chunk; large files are split at line boundaries, closing the running chunk
when the next line would exceed the budget. -/
def chunk_file (rel content : PyStr) : List Chunk :=
  if content.length ≤ MAX_CHARS then [⟨rel, content, 0⟩]
  else chunkFinal rel (chunkLoop rel 0 (pySplitlinesKeep content) ⟨[], [], 0, 0⟩)

/-- `rel_from_label(label)`: the prefix of `label` before its first `[`. -/
def rel_from_label (label : PyStr) : PyStr :=
  if '[' ∈ label then label.takeWhile (fun c => c ≠ '[') else label

/-- Invariant carried through the `chunk_file` loop. -/
def ChInv (rel : PyStr) (lines : List PyStr) (st : ChState) : Prop :=
  (∀ l ∈ st.cur, l ∈ lines) ∧
  st.cur_len = st.cur.flatten.length ∧
  (st.cur.flatten.length ≤ MAX_CHARS ∨ ∃ l, st.cur = [l]) ∧
  (∀ c ∈ st.chunks,
    (c.text.length ≤ MAX_CHARS ∨ c.text ∈ lines) ∧
    c.text ≠ [] ∧
    (c.label = rel ∨ ∃ k, c.label = chunkLabel rel k))

theorem flatten_ne_nil_of_head {cur : List PyStr} (hne : cur ≠ [])
    (hmem : ∀ l ∈ cur, l ≠ []) : cur.flatten ≠ [] := by
  cases cur with
  | nil => exact absurd rfl hne
  | cons l rest =>
      have hl : l ≠ [] := hmem l (by simp)
      intro h
      rw [List.flatten_cons] at h
      exact hl (List.append_eq_nil.mp h).1

theorem chunkStep_inv {rel : PyStr} {lines : List PyStr} {st : ChState}
    (hlines : ∀ l ∈ lines, l ≠ []) (hinv : ChInv rel lines st)
    {i : Nat} {line : PyStr} (hline : line ∈ lines) :
    ChInv rel lines (chunkStep rel i line st) := by
  obtain ⟨hcur, hlen, hsz, hch⟩ := hinv
  by_cases hcond : MAX_CHARS < st.cur_len + line.length ∧ st.cur ≠ []
  · have hstep : chunkStep rel i line st =
        { chunks := st.chunks ++
            [⟨chunkLabel rel st.start, st.cur.flatten, st.start⟩],
          cur := [line], cur_len := line.length, start := i } := by
      unfold chunkStep; rw [if_pos hcond]
    rw [hstep]
    refine ⟨by simp [hline], by simp, Or.inr ⟨line, rfl⟩, ?_⟩
    intro c hc
    rcases List.mem_append.mp hc with h | h
    · exact hch c h
    · have hc' : c = ⟨chunkLabel rel st.start, st.cur.flatten, st.start⟩ := by
        simpa using h
      subst hc'
      refine ⟨?_, ?_, Or.inr ⟨st.start, rfl⟩⟩
      · rcases hsz with h | ⟨l, hl⟩
        · exact Or.inl h
        · right
          have : st.cur.flatten = l := by simp [hl]
          rw [this]
          exact hcur l (by simp [hl])
      · exact flatten_ne_nil_of_head hcond.2 (fun l hl => hlines l (hcur l hl))
  · have hstep : chunkStep rel i line st =
        { st with cur := st.cur ++ [line],
                  cur_len := st.cur_len + line.length } := by
      unfold chunkStep; rw [if_neg hcond]
    rw [hstep]
    refine ⟨?_, by simp [hlen], ?_, hch⟩
    · intro l hl
      rcases List.mem_append.mp hl with h | h
      · exact hcur l h
      · have : l = line := by simpa using h
        exact this ▸ hline
    · rcases Decidable.not_and_iff_or_not.mp hcond with h | h
      · left
        have h' : st.cur_len + line.length ≤ MAX_CHARS := Nat.le_of_not_lt h
        simpa [hlen] using h'
      · have hnil : st.cur = [] := not_not.mp h
        right
        exact ⟨line, by simp [hnil]⟩

theorem chunkLoop_inv (rel : PyStr) (lines : List PyStr)
    (hlines : ∀ l ∈ lines, l ≠ []) :
    ∀ (ls : List PyStr) (i : Nat) (st : ChState), (∀ l ∈ ls, l ∈ lines) →
      ChInv rel lines st → ChInv rel lines (chunkLoop rel i ls st)
  | [], _, st, _, hinv => hinv
  | l :: ls, i, st, hmem, hinv =>
      chunkLoop_inv rel lines hlines ls (i + 1) (chunkStep rel i l st)
        (fun x hx => hmem x (by simp [hx]))
        (chunkStep_inv hlines hinv (hmem l (by simp)))

theorem chunkLoop_flatten (rel : PyStr) :
    ∀ (ls : List PyStr) (i : Nat) (st : ChState),
      ((chunkLoop rel i ls st).chunks.map Chunk.text).flatten ++
          (chunkLoop rel i ls st).cur.flatten =
        (st.chunks.map Chunk.text).flatten ++ st.cur.flatten ++ ls.flatten
  | [], _, st => by simp [chunkLoop]
  | l :: ls, i, st => by
      rw [chunkLoop]
      rw [chunkLoop_flatten rel ls (i + 1) (chunkStep rel i l st)]
      unfold chunkStep
      by_cases hcond : MAX_CHARS < st.cur_len + l.length ∧ st.cur ≠ []
      · simp [hcond]
      · simp [hcond]

/-- Structural facts about every chunk `chunk_file` produces: its text is
within budget or is a single source line; it is nonempty unless the whole
file is empty; its label is the path or the path with a `[k:]` suffix. -/
theorem chunk_file_inv (rel content : PyStr) :
    ∀ c ∈ chunk_file rel content,
      (c.text.length ≤ MAX_CHARS ∨ c.text ∈ pySplitlinesKeep content) ∧
      (content = [] ∨ c.text ≠ []) ∧
      (c.label = rel ∨ ∃ k, c.label = chunkLabel rel k) := by
  intro c hc
  unfold chunk_file at hc
  by_cases hsmall : content.length ≤ MAX_CHARS
  · rw [if_pos hsmall] at hc
    have hceq : c = ⟨rel, content, 0⟩ := by simpa using hc
    subst hceq
    refine ⟨Or.inl hsmall, ?_, Or.inl rfl⟩
    by_cases hcon : content = []
    · exact Or.inl hcon
    · exact Or.inr hcon
  · rw [if_neg hsmall] at hc
    have hlines : ∀ l ∈ pySplitlinesKeep content, l ≠ [] :=
      splitKeepAux_ne_nil content []
    obtain ⟨hcur, hlen, hsz, hch⟩ :
        ChInv rel (pySplitlinesKeep content)
          (chunkLoop rel 0 (pySplitlinesKeep content) ⟨[], [], 0, 0⟩) :=
      chunkLoop_inv rel (pySplitlinesKeep content) hlines
        (pySplitlinesKeep content) 0 ⟨[], [], 0, 0⟩ (fun _ hl => hl)
        ⟨by simp, by simp, Or.inl (by simp [MAX_CHARS]), by simp⟩
    set st := chunkLoop rel 0 (pySplitlinesKeep content) ⟨[], [], 0, 0⟩ with hst
    unfold chunkFinal at hc
    by_cases hcnil : st.cur ≠ []
    · rw [if_pos hcnil] at hc
      rcases List.mem_append.mp hc with h | h
      · obtain ⟨h1, h2, h3⟩ := hch c h
        exact ⟨h1, Or.inr h2, h3⟩
      · have hceq : c = ⟨if 0 < st.start then chunkLabel rel st.start else rel,
            st.cur.flatten, st.start⟩ := by simpa using h
        subst hceq
        refine ⟨?_,
          Or.inr (flatten_ne_nil_of_head hcnil (fun l hl => hlines l (hcur l hl))), ?_⟩
        · rcases hsz with h' | ⟨l, hl⟩
          · exact Or.inl h'
          · right
            show st.cur.flatten ∈ pySplitlinesKeep content
            rw [show st.cur.flatten = l by simp [hl]]
            exact hcur l (by simp [hl])
        · by_cases hstart : 0 < st.start
          · right
            exact ⟨st.start, by simp [hstart]⟩
          · left
            simp [hstart]
    · rw [if_neg hcnil] at hc
      obtain ⟨h1, h2, h3⟩ := hch c hc
      exact ⟨h1, Or.inr h2, h3⟩

/-- Concatenating chunk texts in order reproduces the file text. -/
theorem chunk_file_flatten (rel content : PyStr) :
    ((chunk_file rel content).map Chunk.text).flatten = content := by
  unfold chunk_file
  by_cases hsmall : content.length ≤ MAX_CHARS
  · rw [if_pos hsmall]; simp
  · rw [if_neg hsmall]
    have hloop := chunkLoop_flatten rel (pySplitlinesKeep content) 0 ⟨[], [], 0, 0⟩
    simp only [List.map_nil, List.flatten_nil, List.nil_append] at hloop
    set st := chunkLoop rel 0 (pySplitlinesKeep content) ⟨[], [], 0, 0⟩ with hst
    unfold chunkFinal
    by_cases hcnil : st.cur ≠ []
    · rw [if_pos hcnil]
      simp only [List.map_append, List.map_cons, List.map_nil, List.flatten_append,
        List.flatten_cons, List.flatten_nil, List.append_nil]
      rw [hloop]
      exact pySplitlinesKeep_flatten content
    · rw [if_neg hcnil]
      have hnil : st.cur = [] := not_not.mp hcnil
      rw [hnil, List.flatten_nil, List.append_nil] at hloop
      rw [hloop]
      exact pySplitlinesKeep_flatten content

theorem takeWhile_prefix_bracket (rel t : PyStr) (h : '[' ∉ rel) :
    (rel ++ '[' :: t).takeWhile (fun c => c ≠ '[') = rel := by
  induction rel with
  | nil => simp [List.takeWhile]
  | cons r rs ih =>
      have hr : r ≠ '[' := fun he => h (by simp [he])
      have hrs : '[' ∉ rs := fun he => h (by simp [he])
      simp only [List.cons_append, List.takeWhile_cons]
      rw [if_pos (by simpa using hr)]
      rw [ih hrs]

theorem rel_from_label_chunkLabel (rel : PyStr) (k : Nat) (h : '[' ∉ rel) :
    rel_from_label (chunkLabel rel k) = rel := by
  unfold rel_from_label chunkLabel
  rw [if_pos (by simp)]
  exact takeWhile_prefix_bracket rel _ h

theorem rel_from_label_self (rel : PyStr) (h : '[' ∉ rel) :
    rel_from_label rel = rel := by
  unfold rel_from_label
  rw [if_neg h]

/-- C3: for every file text, concatenating the texts of all chunks the
Chunker produces, in order, reproduces the original text exactly, and no
produced chunk's text is longer than `MAX_CHARS` unless the file contains a
single line longer than `MAX_CHARS`. -/
theorem claim_C3_chunk_coverage (rel content : PyStr) :
    ((chunk_file rel content).map Chunk.text).flatten = content ∧
    ∀ c ∈ chunk_file rel content,
      c.text.length ≤ MAX_CHARS ∨
        ∃ l ∈ pySplitlinesKeep content, MAX_CHARS < l.length := by
  refine ⟨chunk_file_flatten rel content, ?_⟩
  intro c hc
  rcases (chunk_file_inv rel content c hc).1 with h | h
  · exact Or.inl h
  · by_cases hsz : c.text.length ≤ MAX_CHARS
    · exact Or.inl hsz
    · exact Or.inr ⟨c.text, h, Nat.lt_of_not_le hsz⟩

/-- Witness for C3 at a concrete one-line file. -/
theorem claim_C3_chunk_coverage_witness :
    ((chunk_file ['f'] ['x']).map Chunk.text).flatten = ['x'] ∧
    ((⟨['f'], ['x'], 0⟩ : Chunk).text.length ≤ MAX_CHARS ∨
      ∃ l ∈ pySplitlinesKeep ['x'], MAX_CHARS < l.length) :=
  ⟨(claim_C3_chunk_coverage ['f'] ['x']).1,
   (claim_C3_chunk_coverage ['f'] ['x']).2 ⟨['f'], ['x'], 0⟩ (by decide)⟩

/-- C8 counterexample: on the empty file text, `chunk_file` produces a chunk
whose text is empty, so the Chunker does not "never produce an empty
chunk". -/
theorem claim_C8_counterexample :
    ∃ c ∈ chunk_file ['f'] [], c.text = [] :=
  ⟨⟨['f'], [], 0⟩, by decide, rfl⟩

/-- C8 (amended): for every nonempty file text the Chunker never produces an
empty chunk, and a file whose whole text is at most `MAX_CHARS` characters
(including the empty file) becomes exactly one chunk with offset 0 and the
unmodified path as label. -/
theorem claim_C8_no_empty_chunk_amended :
    (∀ rel content : PyStr, content ≠ [] →
      ∀ c ∈ chunk_file rel content, c.text ≠ []) ∧
    (∀ rel content : PyStr, content.length ≤ MAX_CHARS →
      chunk_file rel content = [⟨rel, content, 0⟩]) := by
  constructor
  · intro rel content hcon c hc
    rcases (chunk_file_inv rel content c hc).2.1 with h | h
    · exact absurd h hcon
    · exact h
  · intro rel content hlen
    unfold chunk_file
    rw [if_pos hlen]

/-- Witness for the amended C8 at a concrete one-line file. -/
theorem claim_C8_no_empty_chunk_amended_witness :
    ((⟨['f'], ['x'], 0⟩ : Chunk).text ≠ []) ∧
    chunk_file ['f'] ['x'] = [⟨['f'], ['x'], 0⟩] :=
  ⟨claim_C8_no_empty_chunk_amended.1 ['f'] ['x'] (by decide) ⟨['f'], ['x'], 0⟩ (by decide),
   claim_C8_no_empty_chunk_amended.2 ['f'] ['x'] (by decide)⟩

/-- C9: for every relative path without `[` and every file text, applying
`rel_from_label` to each produced chunk's label returns the path exactly;
and the precondition is necessary: for a path containing `[` the round trip
returns a truncated path. -/
theorem claim_C9_label_roundtrip :
    (∀ rel content : PyStr, '[' ∉ rel →
      ∀ c ∈ chunk_file rel content, rel_from_label c.label = rel) ∧
    (∃ c ∈ chunk_file ['a', '[', 'b'] ['x'],
      rel_from_label c.label ≠ ['a', '[', 'b']) := by
  constructor
  · intro rel content hrel c hc
    rcases (chunk_file_inv rel content c hc).2.2 with h | ⟨k, h⟩
    · rw [h]
      exact rel_from_label_self rel hrel
    · rw [h]
      exact rel_from_label_chunkLabel rel k hrel
  · exact ⟨⟨['a', '[', 'b'], ['x'], 0⟩, by decide, by decide⟩

/-- Witness for C9 at a concrete bracket-free path. -/
theorem claim_C9_label_roundtrip_witness :
    rel_from_label (⟨['f'], ['x'], 0⟩ : Chunk).label = ['f'] :=
  claim_C9_label_roundtrip.1 ['f'] ['x'] (by decide) ⟨['f'], ['x'], 0⟩ (by decide)

/-! ## Batcher (`pack_batches`) -/

/-- The small-file case of `chunk_file`, as an unconditional rewrite. -/
theorem chunk_file_small (rel content : PyStr) (h : content.length ≤ MAX_CHARS) :
    chunk_file rel content = [⟨rel, content, 0⟩] := by
  unfold chunk_file
  rw [if_pos h]

/-- Total text length of a batch (`sum(len(c) for _, c, _ in b)`). -/
def batchLen (b : List Chunk) : Nat := (b.map (fun c => c.text.length)).sum

/-- Loop state of `pack_batches`: closed batches, the open batch, its
total text length. -/
structure PackState where
  batches : List (List Chunk)
  cur : List Chunk
  cur_len : Nat
deriving Repr

/-- One iteration of the inner chunk loop of `pack_batches`. -/
def packStep (st : PackState) (c : Chunk) : PackState :=
  if MAX_CHARS < c.text.length then
    { st with batches := st.batches ++ [[c]] }
  else if MAX_CHARS < st.cur_len + c.text.length then
    { batches := if st.cur ≠ [] then st.batches ++ [st.cur] else st.batches,
      cur := [c], cur_len := c.text.length }
  else
    { st with cur := st.cur ++ [c], cur_len := st.cur_len + c.text.length }

/-- The `if cur: batches.append(cur)` epilogue of `pack_batches`. -/
def packFinal (st : PackState) : List (List Chunk) :=
  if st.cur ≠ [] then st.batches ++ [st.cur] else st.batches

/-- A file list as `pack_batches` consumes it: relative path plus the result
of `read_file` (`none` when the read failed and the file is skipped). -/
abbrev FileList := List (PyStr × Option PyStr)

/-- The chunks `pack_batches` feeds to its inner loop, in input order. -/
def chunkStream (files : FileList) : List Chunk :=
  files.flatMap fun f =>
    match f.2 with
    | none => []
    | some content => chunk_file f.1 content

/-- `pack_batches(files, root)` from the source, over the read file
contents: skip unreadable files, chunk each file, and pack the chunks
greedily, isolating oversized chunks as immediate singleton batches. -/
def pack_batches (files : FileList) : List (List Chunk) :=
  packFinal (files.foldl
    (fun st f =>
      match f.2 with
      | none => st
      | some content => (chunk_file f.1 content).foldl packStep st)
    ⟨[], [], 0⟩)

theorem pack_batches_eq_stream_aux (files : FileList) :
    ∀ st : PackState,
      files.foldl
        (fun st f =>
          match f.2 with
          | none => st
          | some content => (chunk_file f.1 content).foldl packStep st) st =
      (chunkStream files).foldl packStep st := by
  induction files with
  | nil => intro st; simp [chunkStream]
  | cons f fs ih =>
      intro st
      cases hf : f.2 with
      | none => simp [chunkStream, List.foldl_cons, hf, ih, List.flatMap_cons]
      | some content =>
          simp [chunkStream, List.foldl_cons, hf, ih, List.flatMap_cons,
            List.foldl_append]

/-- `pack_batches` is the greedy fold over the flattened chunk stream. -/
theorem pack_batches_eq_stream (files : FileList) :
    pack_batches files = packFinal ((chunkStream files).foldl packStep ⟨[], [], 0⟩) := by
  unfold pack_batches
  rw [pack_batches_eq_stream_aux]

/-- Invariant carried through the `pack_batches` loop. -/
def PackInv (st : PackState) : Prop :=
  st.cur_len = batchLen st.cur ∧
  st.cur_len ≤ MAX_CHARS ∧
  ∀ b ∈ st.batches, batchLen b ≤ MAX_CHARS ∨ ∃ c, b = [c] ∧ MAX_CHARS < c.text.length

theorem packStep_inv {st : PackState} (hinv : PackInv st) (c : Chunk) :
    PackInv (packStep st c) := by
  obtain ⟨hlen, hbud, hb⟩ := hinv
  unfold packStep
  by_cases hbig : MAX_CHARS < c.text.length
  · rw [if_pos hbig]
    refine ⟨hlen, hbud, ?_⟩
    intro b hbmem
    rcases List.mem_append.mp hbmem with h | h
    · exact hb b h
    · have : b = [c] := by simpa using h
      exact Or.inr ⟨c, this, hbig⟩
  · rw [if_neg hbig]
    by_cases hover : MAX_CHARS < st.cur_len + c.text.length
    · rw [if_pos hover]
      refine ⟨by simp [batchLen], Nat.le_of_not_lt hbig, ?_⟩
      intro b hbmem
      by_cases hcnil : st.cur ≠ []
      · rw [if_pos hcnil] at hbmem
        rcases List.mem_append.mp hbmem with h | h
        · exact hb b h
        · have : b = st.cur := by simpa using h
          subst this
          exact Or.inl (hlen ▸ hbud)
      · rw [if_neg hcnil] at hbmem
        exact hb b hbmem
    · rw [if_neg hover]
      refine ⟨?_, Nat.le_of_not_lt hover, hb⟩
      simp [batchLen, hlen, Nat.add_comm]

theorem packFold_inv (cs : List Chunk) :
    ∀ st : PackState, PackInv st → PackInv (cs.foldl packStep st) := by
  induction cs with
  | nil => intro st h; exact h
  | cons c cs ih => intro st h; exact ih _ (packStep_inv h c)

theorem packStep_perm (st : PackState) (c : Chunk) :
    ((packStep st c).batches.flatten ++ (packStep st c).cur).Perm
      (st.batches.flatten ++ st.cur ++ [c]) := by
  unfold packStep
  by_cases hbig : MAX_CHARS < c.text.length
  · rw [if_pos hbig]
    simp only [List.flatten_append, List.flatten_cons, List.flatten_nil,
      List.append_nil]
    have h1 : st.batches.flatten ++ [c] ++ st.cur =
        st.batches.flatten ++ ([c] ++ st.cur) := by simp [List.append_assoc]
    have h2 : st.batches.flatten ++ st.cur ++ [c] =
        st.batches.flatten ++ (st.cur ++ [c]) := by simp [List.append_assoc]
    rw [h1, h2]
    exact List.Perm.append_left _ List.perm_append_comm
  · rw [if_neg hbig]
    by_cases hover : MAX_CHARS < st.cur_len + c.text.length
    · rw [if_pos hover]
      by_cases hcnil : st.cur ≠ []
      · rw [if_pos hcnil]
        simp [List.append_assoc]
      · rw [if_neg hcnil]
        have : st.cur = [] := not_not.mp hcnil
        simp [this]
    · rw [if_neg hover]
      simp [List.append_assoc]

theorem packFold_perm (cs : List Chunk) :
    ∀ st : PackState,
      ((cs.foldl packStep st).batches.flatten ++ (cs.foldl packStep st).cur).Perm
        (st.batches.flatten ++ st.cur ++ cs) := by
  induction cs with
  | nil => intro st; simp
  | cons c cs ih =>
      intro st
      rw [List.foldl_cons]
      have h := (ih (packStep st c)).trans ((packStep_perm st c).append_right cs)
      simpa [List.append_assoc] using h

theorem packFinal_perm (st : PackState) :
    (packFinal st).flatten.Perm (st.batches.flatten ++ st.cur) := by
  unfold packFinal
  by_cases hcnil : st.cur ≠ []
  · rw [if_pos hcnil]
    simp
  · rw [if_neg hcnil]
    have : st.cur = [] := not_not.mp hcnil
    simp [this]

theorem packFinal_inv {st : PackState} (hinv : PackInv st) :
    ∀ b ∈ packFinal st,
      batchLen b ≤ MAX_CHARS ∨ ∃ c, b = [c] ∧ MAX_CHARS < c.text.length := by
  obtain ⟨hlen, hbud, hb⟩ := hinv
  intro b hbmem
  unfold packFinal at hbmem
  by_cases hcnil : st.cur ≠ []
  · rw [if_pos hcnil] at hbmem
    rcases List.mem_append.mp hbmem with h | h
    · exact hb b h
    · have : b = st.cur := by simpa using h
      subst this
      exact Or.inl (hlen ▸ hbud)
  · rw [if_neg hcnil] at hbmem
    exact hb b hbmem

/-- C4: every produced batch's total text length is at most `MAX_CHARS`
except singleton batches holding one chunk longer than `MAX_CHARS`, and
every input chunk appears in exactly one output batch (the multiset of
chunks across all batches equals the input chunk stream). -/
theorem claim_C4_batch_budget (files : FileList) :
    (∀ b ∈ pack_batches files,
      batchLen b ≤ MAX_CHARS ∨ ∃ c, b = [c] ∧ MAX_CHARS < c.text.length) ∧
    (pack_batches files).flatten.Perm (chunkStream files) := by
  rw [pack_batches_eq_stream]
  constructor
  · exact packFinal_inv
      (packFold_inv (chunkStream files) ⟨[], [], 0⟩
        ⟨by simp [batchLen], by simp [MAX_CHARS], by simp⟩)
  · exact (packFinal_perm _).trans
      (by simpa using packFold_perm (chunkStream files) ⟨[], [], 0⟩)

/-- Witness for C4 at a concrete one-file list. -/
theorem claim_C4_batch_budget_witness :
    (batchLen [⟨['a'], ['x'], 0⟩] ≤ MAX_CHARS ∨
      ∃ c, [(⟨['a'], ['x'], 0⟩ : Chunk)] = [c] ∧ MAX_CHARS < c.text.length) ∧
    (pack_batches [(['a'], some ['x'])]).flatten.Perm
      (chunkStream [(['a'], some ['x'])]) :=
  ⟨(claim_C4_batch_budget [(['a'], some ['x'])]).1 [⟨['a'], ['x'], 0⟩] (by decide),
   (claim_C4_batch_budget [(['a'], some ['x'])]).2⟩

theorem splitKeepAux_replicate (c : Char) (hc : isLineBreak c = false) :
    ∀ (n : Nat) (acc : List Char),
      splitKeepAux (List.replicate (n + 1) c) acc =
        [acc.reverse ++ List.replicate (n + 1) c] := by
  have hcr : c ≠ '\r' := by
    intro h
    subst h
    simp [isLineBreak] at hc
  intro n
  induction n with
  | zero =>
      intro acc
      rw [show List.replicate 1 c = [c] from rfl,
        splitKeepAux.eq_3 acc c [] (fun r _ hr => by simp at hr)]
      simp [splitKeepAux, hc]
  | succ n ih =>
      intro acc
      rw [show List.replicate (n + 1 + 1) c = c :: List.replicate (n + 1) c from
          List.replicate_succ c (n + 1),
        splitKeepAux.eq_3 acc c (List.replicate (n + 1) c)
          (fun r hc' _ => absurd hc' hcr)]
      rw [if_neg (by simp [hc])]
      rw [ih (c :: acc)]
      simp [List.replicate_succ]

/-- A file that is one single line longer than the budget becomes one
oversized chunk. -/
theorem chunk_file_single_big (rel : PyStr) (n : Nat) (hn : MAX_CHARS < n)
    (c : Char) (hc : isLineBreak c = false) :
    chunk_file rel (List.replicate n c) = [⟨rel, List.replicate n c, 0⟩] := by
  obtain ⟨m, rfl⟩ : ∃ m, n = m + 1 := ⟨n - 1, by omega⟩
  unfold chunk_file
  rw [if_neg (by simpa using Nat.not_le.mpr hn)]
  rw [pySplitlinesKeep, splitKeepAux_replicate c hc m []]
  rw [show ([] : List Char).reverse ++ List.replicate (m + 1) c =
      List.replicate (m + 1) c by simp]
  rw [chunkLoop, chunkLoop]
  unfold chunkStep
  rw [if_neg (by simp)]
  unfold chunkFinal
  rw [if_pos (by simp)]
  simp

/-- A single source line one character over the budget. -/
def bigText : PyStr := List.replicate (MAX_CHARS + 1) 'z'

/-- C10: an oversized chunk is emitted immediately as a singleton batch with
the open batch left open, so chunks before and after it can share a batch
that appears after the oversized singleton in the output order. -/
theorem claim_C10_oversized_isolated :
    (∀ (st : PackState) (c : Chunk), MAX_CHARS < c.text.length →
      packStep st c = { st with batches := st.batches ++ [[c]] }) ∧
    pack_batches [(['a'], some ['x']), (['b'], some bigText), (['c'], some ['y'])] =
      [[⟨['b'], bigText, 0⟩], [⟨['a'], ['x'], 0⟩, ⟨['c'], ['y'], 0⟩]] := by
  constructor
  · intro st c h
    unfold packStep
    rw [if_pos h]
  · have ha : chunk_file ['a'] ['x'] = [⟨['a'], ['x'], 0⟩] :=
      chunk_file_small _ _ (by simp [MAX_CHARS])
    have hb : chunk_file ['b'] bigText = [⟨['b'], bigText, 0⟩] :=
      chunk_file_single_big ['b'] (MAX_CHARS + 1) (by omega) 'z' (by decide)
    have hc : chunk_file ['c'] ['y'] = [⟨['c'], ['y'], 0⟩] :=
      chunk_file_small _ _ (by simp [MAX_CHARS])
    have h1 : bigText.length = MAX_CHARS + 1 := by simp [bigText]
    have hlenbig : bigText.length = 20001 := by rw [h1, MAX_CHARS]
    unfold pack_batches
    rw [List.foldl_cons, List.foldl_cons, List.foldl_cons, List.foldl_nil]
    simp only [ha, hb, hc, List.foldl_cons, List.foldl_nil]
    simp [packStep, packFinal, hlenbig, MAX_CHARS]

/-- Witness for the universally quantified part of C10. -/
theorem claim_C10_oversized_isolated_witness :
    packStep ⟨[], [], 0⟩ ⟨['b'], bigText, 0⟩ =
      { batches := [[⟨['b'], bigText, 0⟩]], cur := [], cur_len := 0 } :=
  claim_C10_oversized_isolated.1 ⟨[], [], 0⟩ ⟨['b'], bigText, 0⟩
    (by show MAX_CHARS < bigText.length
        rw [show bigText.length = MAX_CHARS + 1 by simp [bigText]]
        omega)

/-! ## Reconciler (`find_lines`) -/

/-- Loop state of `find_lines`: recorded results, recorded global line
numbers (Python's `seen` set, modelled as the list of added numbers — only
membership is ever queried), and the cursor `idx`. -/
structure FLState where
  results : List (Nat × PyStr)
  seen : List Nat
  idx : Nat
deriving Repr

/-- The inner `for i in search_range` loop body of `find_lines`: scan lines
(the first having local index `i`) for the first line whose trimmed form is
`s` *and* whose global line number is not in `seen`. -/
def scanAux (offset : Nat) (seen : List Nat) (s : PyStr) :
    List PyStr → Nat → Option (Nat × PyStr)
  | [], _ => none
  | l :: rest, i =>
    if pyStrip l = s ∧ (offset + i + 1) ∉ seen then some (i, l)
    else scanAux offset seen s rest (i + 1)

/-- Record a hit at local index `i`, line `l`: append the MatchRecord, add
the global number to `seen`, advance the cursor. -/
def flRecord (offset : Nat) (st : FLState) (i : Nat) (l : PyStr) : FLState :=
  { results := st.results ++ [(offset + i + 1, l)],
    seen := st.seen ++ [offset + i + 1],
    idx := i + 1 }

/-- Processing of one response line `ml` in `find_lines`: try the forward
range `range(idx, len(src))`, then the full range `range(len(src))`; on a
hit record the match. -/
def findStep (src : List PyStr) (offset : Nat) (st : FLState) (ml : PyStr) :
    FLState :=
  let s := pyStrip ml
  if s = [] then st
  else
    match scanAux offset st.seen s (src.drop st.idx) st.idx with
    | some (i, l) => flRecord offset st i l
    | none =>
      match scanAux offset st.seen s src 0 with
      | some (i, l) => flRecord offset st i l
      | none => st

/-- `find_lines(content, offset, matched)` from the source. -/
def find_lines (content : PyStr) (offset : Nat) (matched : List PyStr) :
    List (Nat × PyStr) :=
  (matched.foldl (findStep (pySplitlines content) offset) ⟨[], [], 0⟩).results

theorem scanAux_mem {offset : Nat} {seen : List Nat} {s : PyStr} :
    ∀ {ys : List PyStr} {i j : Nat} {l : PyStr},
      scanAux offset seen s ys i = some (j, l) → l ∈ ys := by
  intro ys
  induction ys with
  | nil => intro i j l h; simp [scanAux] at h
  | cons y rest ih =>
      intro i j l h
      unfold scanAux at h
      by_cases hc : pyStrip y = s ∧ (offset + i + 1) ∉ seen
      · rw [if_pos hc] at h
        have hly : l = y := by
          have h2 := (Option.some.injEq _ _).mp h
          exact congrArg Prod.snd h2.symm
        simp [hly]
      · rw [if_neg hc] at h
        exact List.mem_cons_of_mem _ (ih h)

theorem findStep_text_mem {src : List PyStr} {offset : Nat} {st : FLState}
    (hst : ∀ r ∈ st.results, r.2 ∈ src) (ml : PyStr) :
    ∀ r ∈ (findStep src offset st ml).results, r.2 ∈ src := by
  have hrec : ∀ (i : Nat) (l : PyStr), l ∈ src →
      ∀ r ∈ (flRecord offset st i l).results, r.2 ∈ src := by
    intro i l hl r hr
    rcases List.mem_append.mp hr with h | h
    · exact hst r h
    · have hrl : r = (offset + i + 1, l) := by simpa using h
      subst hrl
      exact hl
  unfold findStep
  by_cases hblank : pyStrip ml = []
  · rw [if_pos hblank]; exact hst
  · rw [if_neg hblank]
    cases h1 : scanAux offset st.seen (pyStrip ml) (src.drop st.idx) st.idx with
    | some p =>
        obtain ⟨i, l⟩ := p
        exact hrec i l (List.drop_subset _ _ (scanAux_mem h1))
    | none =>
        cases h2 : scanAux offset st.seen (pyStrip ml) src 0 with
        | some p =>
            obtain ⟨i, l⟩ := p
            exact hrec i l (scanAux_mem h2)
        | none => exact hst

theorem findFold_text_mem (src : List PyStr) (offset : Nat) :
    ∀ (mls : List PyStr) (st : FLState), (∀ r ∈ st.results, r.2 ∈ src) →
      ∀ r ∈ (mls.foldl (findStep src offset) st).results, r.2 ∈ src
  | [], _, hst => hst
  | ml :: mls, st, hst =>
      findFold_text_mem src offset mls (findStep src offset st ml)
        (findStep_text_mem hst ml)

/-- C7: every MatchRecord the Reconciler emits has a text equal to some
actual (verbatim, untrimmed) line of the chunk's content. -/
theorem claim_C7_no_invention (content : PyStr) (offset : Nat)
    (matched : List PyStr) :
    ∀ r ∈ find_lines content offset matched, r.2 ∈ pySplitlines content := by
  unfold find_lines
  exact findFold_text_mem (pySplitlines content) offset matched ⟨[], [], 0⟩
    (by simp)

/-- Witness for C7 at a concrete chunk and response. -/
theorem claim_C7_no_invention_witness :
    ((1 : Nat), ['a']).2 ∈ pySplitlines ['a'] :=
  claim_C7_no_invention ['a'] 0 [['a']] (1, ['a']) (by decide)

/-- The matching policy exactly as C2 states it: look for the first
*trimmed-equal* line (the duplicate check is not part of the search),
falling back to a whole-chunk scan only when the forward range has no
trimmed-equal line; then, if that line's global number is already
recorded, skip the response line as a duplicate. -/
def scanEqAux (s : PyStr) : List PyStr → Nat → Option (Nat × PyStr)
  | [], _ => none
  | l :: rest, i => if pyStrip l = s then some (i, l) else scanEqAux s rest (i + 1)

/-- One response line under the claimed policy. -/
def findStepClaimed (src : List PyStr) (offset : Nat) (st : FLState)
    (ml : PyStr) : FLState :=
  let s := pyStrip ml
  if s = [] then st
  else
    match scanEqAux s (src.drop st.idx) st.idx with
    | some (i, l) =>
        if (offset + i + 1) ∈ st.seen then st else flRecord offset st i l
    | none =>
      match scanEqAux s src 0 with
      | some (i, l) =>
          if (offset + i + 1) ∈ st.seen then st else flRecord offset st i l
      | none => st

/-- `find_lines` as C2 describes it. -/
def find_lines_claimed (content : PyStr) (offset : Nat)
    (matched : List PyStr) : List (Nat × PyStr) :=
  (matched.foldl (findStepClaimed (pySplitlines content) offset)
    ⟨[], [], 0⟩).results

/-- C2 counterexample: on chunk text `"b\na\na"` and response lines
`["a", "b", "a"]` the code records line 3 for the third response line
(its scan skips the already-seen line 2 and finds line 3), while the
claimed first-trimmed-equal-then-check policy skips that response line as a
duplicate. -/
theorem claim_C2_counterexample :
    find_lines ['b', '\n', 'a', '\n', 'a'] 0 [['a'], ['b'], ['a']] ≠
      find_lines_claimed ['b', '\n', 'a', '\n', 'a'] 0 [['a'], ['b'], ['a']] := by
  decide

/-- The matching policy as amended: scan forward from the cursor for the
first line whose trimmed form equals the response line AND whose global
line number is not yet recorded; only if no such line exists there, rescan
the whole chunk for such a line; a response line with no such line anywhere
contributes nothing. -/
def amendScan (src : List PyStr) (offset : Nat) (seen : List Nat) (s : PyStr)
    (cursor : Nat) : Option (Nat × PyStr) :=
  ((src.drop cursor).enumFrom cursor).find? fun p =>
    decide (pyStrip p.2 = s ∧ (offset + p.1 + 1) ∉ seen)

/-- One response line under the amended policy. -/
def findStepAmended (src : List PyStr) (offset : Nat) (st : FLState)
    (ml : PyStr) : FLState :=
  let s := pyStrip ml
  if s = [] then st
  else
    match amendScan src offset st.seen s st.idx with
    | some (i, l) => flRecord offset st i l
    | none =>
      match amendScan src offset st.seen s 0 with
      | some (i, l) => flRecord offset st i l
      | none => st

/-- `find_lines` as the amended C2 describes it. -/
def find_lines_amended (content : PyStr) (offset : Nat)
    (matched : List PyStr) : List (Nat × PyStr) :=
  (matched.foldl (findStepAmended (pySplitlines content) offset)
    ⟨[], [], 0⟩).results

theorem scanAux_eq_enumFrom (offset : Nat) (seen : List Nat) (s : PyStr) :
    ∀ (ys : List PyStr) (k : Nat),
      scanAux offset seen s ys k =
        (ys.enumFrom k).find? fun p =>
          decide (pyStrip p.2 = s ∧ (offset + p.1 + 1) ∉ seen) := by
  intro ys
  induction ys with
  | nil => intro k; simp [scanAux]
  | cons y rest ih =>
      intro k
      by_cases hc : pyStrip y = s ∧ (offset + k + 1) ∉ seen
      · simp [scanAux, hc, List.enumFrom, List.find?]
      · simp [scanAux, hc, List.enumFrom, List.find?, ih]

theorem findStep_eq_amended (src : List PyStr) (offset : Nat) :
    findStep src offset = findStepAmended src offset := by
  funext st ml
  unfold findStep findStepAmended amendScan
  simp only [scanAux_eq_enumFrom, List.drop_zero]

/-- C2 (amended): for every chunk and response text, the Reconciler
processes each non-blank trimmed response line by scanning the chunk's
lines forward from the per-chunk cursor for a trimmed-equal line *whose
global line number `lineOffset + localIndex + 1` is not already recorded*,
and only if no such line is found there, rescanning the whole chunk from
the start for such a line; on a hit it records the MatchRecord and advances
the cursor to `localIndex + 1`, and a response line with no recordable line
in either scan is dropped. -/
theorem claim_C2_policy_amended (content : PyStr) (offset : Nat)
    (matched : List PyStr) :
    find_lines content offset matched =
      find_lines_amended content offset matched := by
  unfold find_lines find_lines_amended
  rw [findStep_eq_amended]

/-! ## Aggregation (`match_results`) and the dispatch loop of `main` -/

/-- Python string `<` (lexicographic by code point), as `≤`:
`pyStrLe a b` iff `a ≤ b` in Python string order. -/
def pyStrLe : PyStr → PyStr → Bool
  | [], _ => true
  | _ :: _, [] => false
  | c :: cs, d :: ds => if c < d then true else if d < c then false else pyStrLe cs ds

theorem pyStrLe_total : ∀ a b : PyStr, pyStrLe a b = true ∨ pyStrLe b a = true
  | [], _ => Or.inl rfl
  | _ :: _, [] => Or.inr rfl
  | c :: cs, d :: ds => by
      rcases lt_trichotomy c d with h | h | h
      · left; simp [pyStrLe, h]
      · subst h
        rcases pyStrLe_total cs ds with ih | ih
        · left; simp [pyStrLe, lt_irrefl, ih]
        · right; simp [pyStrLe, lt_irrefl, ih]
      · right; simp [pyStrLe, h]

theorem pyStrLe_trans : ∀ a b c : PyStr,
    pyStrLe a b = true → pyStrLe b c = true → pyStrLe a c = true
  | [], _, _, _, _ => rfl
  | _ :: _, [], _, hab, _ => by simp [pyStrLe] at hab
  | _ :: _, _ :: _, [], _, hbc => by simp [pyStrLe] at hbc
  | x :: xs, y :: ys, z :: zs, hab, hbc => by
      rcases lt_trichotomy x y with hxy | hxy | hxy
      · rcases lt_trichotomy y z with hyz | hyz | hyz
        · simp [pyStrLe, lt_trans hxy hyz]
        · subst hyz; simp [pyStrLe, hxy]
        · exfalso
          simp [pyStrLe, hyz, asymm hyz] at hbc
      · subst hxy
        rcases lt_trichotomy x z with hyz | hyz | hyz
        · simp [pyStrLe, hyz]
        · subst hyz
          simp only [pyStrLe, lt_irrefl, if_false] at hab hbc ⊢
          exact pyStrLe_trans xs ys zs hab hbc
        · exfalso
          simp [pyStrLe, hyz, asymm hyz] at hbc
      · exfalso
        simp [pyStrLe, hxy, asymm hxy] at hab

/-- Python tuple `≤` on MatchRecords `(lineNumber, text)`: numeric on the
line number, then string order on the text. -/
def matchLe (a b : Nat × PyStr) : Prop :=
  a.1 < b.1 ∨ (a.1 = b.1 ∧ pyStrLe a.2 b.2 = true)

instance : DecidableRel matchLe := fun a b => by
  unfold matchLe
  infer_instance

instance : IsTotal (Nat × PyStr) matchLe where
  total a b := by
    rcases Nat.lt_trichotomy a.1 b.1 with h | h | h
    · exact Or.inl (Or.inl h)
    · rcases pyStrLe_total a.2 b.2 with h2 | h2
      · exact Or.inl (Or.inr ⟨h, h2⟩)
      · exact Or.inr (Or.inr ⟨h.symm, h2⟩)
    · exact Or.inr (Or.inl h)

instance : IsTrans (Nat × PyStr) matchLe where
  trans a b c hab hbc := by
    rcases hab with h1 | ⟨h1, h1s⟩ <;> rcases hbc with h2 | ⟨h2, h2s⟩
    · exact Or.inl (lt_trans h1 h2)
    · exact Or.inl (h2 ▸ h1)
    · exact Or.inl (h1 ▸ h2)
    · exact Or.inr ⟨h1.trans h2, pyStrLe_trans _ _ _ h1s h2s⟩

/-- Python `sorted(set(ms))` on MatchRecord tuples.  `set` collapses equal
tuples (`dedup`); `sorted` then enumerates the distinct tuples in ascending
tuple order — any sorting algorithm gives that unique result, modelled here
with insertion sort. -/
def pySortedSet (ms : List (Nat × PyStr)) : List (Nat × PyStr) :=
  List.insertionSort matchLe ms.dedup

/-- A per-batch result mapping: file path to records, in insertion order
(Python dict semantics). -/
abbrev ResultMap := List (PyStr × List (Nat × PyStr))

/-- `results.setdefault(rel, []).extend(m)` on the insertion-ordered
mapping. -/
def addMatches (results : ResultMap) (rel : PyStr) (m : List (Nat × PyStr)) :
    ResultMap :=
  if results.any (fun p => p.1 = rel) then
    results.map (fun p => if p.1 = rel then (p.1, p.2 ++ m) else p)
  else results ++ [(rel, m)]

/-- `match_results(output, batch)` from the source: empty or blank output
gives the empty mapping; otherwise reconcile each chunk against the
response lines, group under the label stripped of its range suffix, then
sort and deduplicate each file's records. -/
def match_results (output : PyStr) (batch : List Chunk) : ResultMap :=
  if output = [] ∨ pyStrip output = [] then []
  else
    (batch.foldl
      (fun acc ch =>
        let m := find_lines ch.text ch.lineOffset (pySplitlines output)
        if m ≠ [] then addMatches acc (rel_from_label ch.label) m else acc)
      []).map (fun p => (p.1, pySortedSet p.2))

/-- Every value in `match_results` is of the form `pySortedSet ms`. -/
theorem match_results_mem {output : PyStr} {batch : List Chunk}
    {rel : PyStr} {ms : List (Nat × PyStr)}
    (h : (rel, ms) ∈ match_results output batch) :
    ∃ ms0, ms = pySortedSet ms0 := by
  unfold match_results at h
  by_cases hout : output = [] ∨ pyStrip output = []
  · rw [if_pos hout] at h
    simp at h
  · rw [if_neg hout] at h
    obtain ⟨p, _, hp⟩ := List.mem_map.mp h
    exact ⟨p.2, (congrArg Prod.snd hp).symm⟩

/-- A completed future, as `as_completed(futs)` yields it: the batch it was
dispatched for (`futs[fut]`), and either the raised exception (modelled by
a numeric code) or the returned response text. -/
abbrev Completed := List Chunk × Except Nat PyStr

/-- Accumulator of the `for fut in as_completed(futs)` loop of `main`:
the nonempty per-batch result mappings printed so far (in completion
order), and the batches reported as errors (in completion order). -/
structure RunAcc where
  blocks : List ResultMap
  errors : List (List Chunk)
deriving Repr

/-- One completed future: an exception prints a per-batch error naming the
batch's labels and continues; a result is reconciled, and printed when
nonempty. -/
def runStep (st : RunAcc) (fb : Completed) : RunAcc :=
  match fb.2 with
  | .error _ => { st with errors := st.errors ++ [fb.1] }
  | .ok out =>
      if match_results out fb.1 ≠ [] then
        { st with blocks := st.blocks ++ [match_results out fb.1] }
      else st

/-- The dispatch loop of `main` over the completed futures in completion
order (an arbitrary permutation of the dispatched batches, due to
concurrency). -/
def runMain (completed : List Completed) : RunAcc :=
  completed.foldl runStep ⟨[], []⟩

/-- `sys.exit(0 if found else 1)`: `found` is set exactly when some batch
printed a nonempty result. -/
def runExit (completed : List Completed) : Nat :=
  if (runMain completed).blocks ≠ [] then 0 else 1

/-- What a completed future contributes to the printed blocks: `none` when
it errors or reconciles to nothing, otherwise its result mapping. -/
def batchBlock (fb : Completed) : Option ResultMap :=
  match fb.2 with
  | .error _ => none
  | .ok out =>
      if match_results out fb.1 ≠ [] then some (match_results out fb.1)
      else none

/-- Whether the future raised. -/
def isErr (fb : Completed) : Bool :=
  match fb.2 with
  | .error _ => true
  | .ok _ => false

theorem runFold_blocks :
    ∀ (completed : List Completed) (st : RunAcc),
      (completed.foldl runStep st).blocks =
        st.blocks ++ completed.filterMap batchBlock := by
  intro completed
  induction completed with
  | nil => intro st; simp
  | cons fb rest ih =>
      intro st
      rw [List.foldl_cons, ih, List.filterMap_cons]
      unfold runStep batchBlock
      cases houtc : fb.2 with
      | error e => simp
      | ok out =>
          by_cases hne : match_results out fb.1 = []
          · simp [hne]
          · simp [hne]

theorem runFold_errors :
    ∀ (completed : List Completed) (st : RunAcc),
      (completed.foldl runStep st).errors =
        st.errors ++ (completed.filter isErr).map Prod.fst := by
  intro completed
  induction completed with
  | nil => intro st; simp
  | cons fb rest ih =>
      intro st
      rw [List.foldl_cons, ih, List.filter_cons]
      unfold runStep isErr
      cases houtc : fb.2 with
      | error e => simp
      | ok out =>
          by_cases hne : match_results out fb.1 = []
          · simp [hne]
          · simp [hne]

/-- The blocks are exactly the nonempty reconciliations in completion
order; the reported errors are exactly the failed batches in completion
order. -/
theorem runMain_decomp (completed : List Completed) :
    (runMain completed).blocks = completed.filterMap batchBlock ∧
    (runMain completed).errors = (completed.filter isErr).map Prod.fst := by
  constructor
  · simpa using runFold_blocks completed ⟨[], []⟩
  · simpa using runFold_errors completed ⟨[], []⟩

/-- The whole printed output for one file across the run: the file's
records from each printed block, in completion order. -/
def perFileOut (rel : PyStr) (acc : RunAcc) : List (Nat × PyStr) :=
  acc.blocks.foldl
    (fun l blk => l ++ ((blk.find? (fun p => p.1 = rel)).map Prod.snd).getD []) []

/-- C1 counterexample, first completed future: the second chunk of a split
file `f` (label `f[3:]`, line offset 2), whose call echoed its line. -/
def cexDone0 : Completed := ([⟨['f', '[', '3', ':', ']'], ['b'], 2⟩], .ok ['b'])

/-- C1 counterexample, second completed future: the first chunk of the same
file `f` (label `f[1:]`, line offset 0), whose call echoed its line. -/
def cexDone1 : Completed := ([⟨['f', '[', '1', ':', ']'], ['a'], 0⟩], .ok ['a'])

/-- C1 counterexample: with one file split across two batches, the two
completion orders print file `f`'s records in different orders (line 3
before line 1 in one, after it in the other), so the final per-file output
is neither independent of completion order nor globally sorted: `main`
prints each batch's results as it completes and never aggregates across
batches. -/
theorem claim_C1_counterexample :
    perFileOut ['f'] (runMain [cexDone0, cexDone1]) ≠
      perFileOut ['f'] (runMain [cexDone1, cexDone0]) := by
  decide

/-- C1 (amended): deduplication and ascending sorting hold per batch, not
across the run: every per-file record sequence in a batch's printed mapping
is sorted ascending in Python tuple order and duplicate-free, and the run's
printed blocks are exactly the nonempty per-batch mappings in completion
order. -/
theorem claim_C1_per_batch_sorted_amended :
    (∀ (output : PyStr) (batch : List Chunk) (rel : PyStr)
      (ms : List (Nat × PyStr)), (rel, ms) ∈ match_results output batch →
      List.Sorted matchLe ms ∧ ms.Nodup) ∧
    (∀ completed : List Completed,
      (runMain completed).blocks = completed.filterMap batchBlock) := by
  constructor
  · intro output batch rel ms hmem
    obtain ⟨ms0, rfl⟩ := match_results_mem hmem
    constructor
    · exact List.sorted_insertionSort matchLe ms0.dedup
    · exact (List.perm_insertionSort matchLe ms0.dedup).nodup_iff.mpr
        (List.nodup_dedup ms0)
  · intro completed
    exact (runMain_decomp completed).1

/-- Witness for the amended C1 at a concrete batch and response. -/
theorem claim_C1_per_batch_sorted_amended_witness :
    List.Sorted matchLe [((1 : Nat), ['a'])] ∧ [((1 : Nat), ['a'])].Nodup :=
  claim_C1_per_batch_sorted_amended.1 ['a'] [⟨['f'], ['a'], 0⟩] ['f']
    [(1, ['a'])] (by decide)

/-! ## Dispatcher (`call_llm`) -/

/-- An HTTP response as `call_llm` consumes it: the status code and the
`choices[0].message` content (`none` models a JSON `null`/missing field). -/
structure HttpResp where
  status : Nat
  content : Option PyStr

/-- The transient-failure statuses `(429, 502, 503, 504)`. -/
def transient (status : Nat) : Bool :=
  status = 429 ∨ status = 502 ∨ status = 503 ∨ status = 504

/-- `httpx.Response.raise_for_status()`: raises exactly on 4xx/5xx. -/
def raise_for_status (r : HttpResp) : Except Nat Unit :=
  if 400 ≤ r.status then .error r.status else .ok ()

/-- The `for attempt in range(3)` retry loop of `call_llm`, from a given
attempt, where `resp a` is the response the `a`-th POST would receive:
transient statuses retry, anything else goes through `raise_for_status`
and, if it survives, returns `(content or "").strip()`; falling off the
loop re-raises on the last (third) response.  (The `.ok []` in the
fall-off branch mirrors Python's implicit `None` return; it is unreachable
from attempt 0, since falling off requires the third response to be
transient and every transient status is ≥ 400.) -/
def call_llm_from (resp : Nat → HttpResp) (attempt : Nat) : Except Nat PyStr :=
  if attempt < 3 then
    if transient (resp attempt).status then call_llm_from resp (attempt + 1)
    else
      match raise_for_status (resp attempt) with
      | .error e => .error e
      | .ok _ => .ok (pyStrip ((resp attempt).content.getD []))
  else
    match raise_for_status (resp 2) with
    | .error e => .error e
    | .ok _ => .ok []
  termination_by 3 - attempt

/-- The outcome of `call_llm` for a batch whose `a`-th POST would receive
`resp a`. -/
def call_llm (resp : Nat → HttpResp) : Except Nat PyStr :=
  call_llm_from resp 0

/-- How many POSTs the retry loop performs from a given attempt. -/
def call_llm_attempts_from (resp : Nat → HttpResp) (attempt : Nat) : Nat :=
  if attempt < 3 then
    if transient (resp attempt).status then
      call_llm_attempts_from resp (attempt + 1) + 1
    else 1
  else 0
  termination_by 3 - attempt

/-- How many POSTs `call_llm` performs in total. -/
def call_llm_attempts (resp : Nat → HttpResp) : Nat :=
  call_llm_attempts_from resp 0

/-- The arguments passed to `time.sleep` (the backoff schedule `2 **
attempt`), from a given attempt. -/
def call_llm_delays_from (resp : Nat → HttpResp) (attempt : Nat) : List Nat :=
  if attempt < 3 then
    if transient (resp attempt).status then
      2 ^ attempt :: call_llm_delays_from resp (attempt + 1)
    else []
  else []
  termination_by 3 - attempt

theorem transient_ge_400 {s : Nat} (h : transient s = true) : 400 ≤ s := by
  unfold transient at h
  rcases of_decide_eq_true h with rfl | rfl | rfl | rfl <;> omega

theorem call_llm_attempts_from_le (resp : Nat → HttpResp) :
    ∀ (n k : Nat), 3 - k = n → call_llm_attempts_from resp k ≤ n := by
  intro n
  induction n with
  | zero =>
      intro k hk
      unfold call_llm_attempts_from
      rw [if_neg (by omega)]
  | succ n ih =>
      intro k hk
      unfold call_llm_attempts_from
      by_cases h : k < 3
      · rw [if_pos h]
        by_cases ht : transient (resp k).status
        · rw [if_pos ht]
          have := ih (k + 1) (by omega)
          omega
        · rw [if_neg ht]
          omega
      · rw [if_neg h]
        omega

/-- C5: the external call is attempted at most 3 times; a 429/502/503/504
response is retried after the `2 ** attempt` backoff; any other failing
(≥ 400) response raises immediately after a single POST; three transient
responses surface the last failure; and a batch's failure is reported per
batch (its labels go to the error list) and never suppresses the other
batches' results (the printed blocks are exactly the per-batch nonempty
reconciliations). -/
theorem claim_C5_retry_policy :
    (∀ resp : Nat → HttpResp, call_llm_attempts resp ≤ 3) ∧
    (∀ (resp : Nat → HttpResp) (a : Nat), a < 3 →
      transient (resp a).status = true →
      call_llm_from resp a = call_llm_from resp (a + 1) ∧
      call_llm_delays_from resp a = 2 ^ a :: call_llm_delays_from resp (a + 1)) ∧
    (∀ (resp : Nat → HttpResp) (a : Nat), a < 3 →
      transient (resp a).status = false → 400 ≤ (resp a).status →
      call_llm_from resp a = .error (resp a).status ∧
      call_llm_attempts_from resp a = 1) ∧
    (∀ resp : Nat → HttpResp, (∀ a, a < 3 → transient (resp a).status = true) →
      call_llm resp = .error (resp 2).status ∧ call_llm_attempts resp = 3) ∧
    (∀ completed : List Completed,
      (runMain completed).blocks = completed.filterMap batchBlock ∧
      (runMain completed).errors = (completed.filter isErr).map Prod.fst) := by
  refine ⟨?_, ?_, ?_, ?_, ?_⟩
  · intro resp
    exact call_llm_attempts_from_le resp 3 0 rfl
  · intro resp a ha ht
    constructor
    · conv_lhs => rw [call_llm_from]
      rw [if_pos ha, if_pos ht]
    · conv_lhs => rw [call_llm_delays_from]
      rw [if_pos ha, if_pos ht]
  · intro resp a ha ht hge
    constructor
    · rw [call_llm_from, if_pos ha, if_neg (by simp [ht])]
      unfold raise_for_status
      rw [if_pos hge]
    · rw [call_llm_attempts_from, if_pos ha, if_neg (by simp [ht])]
  · intro resp h
    have h0 := h 0 (by omega)
    have h1 := h 1 (by omega)
    have h2 := h 2 (by omega)
    constructor
    · unfold call_llm
      rw [call_llm_from, if_pos (by omega), if_pos h0,
        call_llm_from, if_pos (by omega), if_pos h1,
        call_llm_from, if_pos (by omega), if_pos h2,
        call_llm_from, if_neg (by omega)]
      unfold raise_for_status
      rw [if_pos (transient_ge_400 h2)]
    · unfold call_llm_attempts
      rw [call_llm_attempts_from, if_pos (by omega), if_pos h0,
        call_llm_attempts_from, if_pos (by omega), if_pos h1,
        call_llm_attempts_from, if_pos (by omega), if_pos h2,
        call_llm_attempts_from, if_neg (by omega)]
  · intro completed
    exact runMain_decomp completed

/-- A service that always rate-limits. -/
def resp429 : Nat → HttpResp := fun _ => ⟨429, none⟩

/-- A service that answers with an authentication error. -/
def resp401 : Nat → HttpResp := fun _ => ⟨401, none⟩

/-- Witness for C5: concrete always-429 and always-401 services. -/
theorem claim_C5_retry_policy_witness :
    call_llm_attempts resp429 ≤ 3 ∧
    (call_llm_from resp429 0 = call_llm_from resp429 1 ∧
      call_llm_delays_from resp429 0 = 2 ^ 0 :: call_llm_delays_from resp429 1) ∧
    (call_llm_from resp401 0 = .error 401 ∧
      call_llm_attempts_from resp401 0 = 1) ∧
    (call_llm resp429 = .error 429 ∧ call_llm_attempts resp429 = 3) :=
  ⟨claim_C5_retry_policy.1 resp429,
   claim_C5_retry_policy.2.1 resp429 0 (by omega) (by decide),
   claim_C5_retry_policy.2.2.1 resp401 0 (by omega) (by decide) (by decide),
   claim_C5_retry_policy.2.2.2.1 resp429 (fun _ _ => rfl)⟩

/-- The Scenario-4 run: one batch errors permanently, the other succeeds
with a match. -/
def scenario4 : List Completed :=
  [([⟨['f'], ['a'], 0⟩], .ok ['a']), ([⟨['g'], ['b'], 0⟩], .error 429)]

/-- C6: the run is non-success exactly when no batch produced a match,
independent of whether some batches errored; and any batch that succeeds
with matches makes the run succeed and places its matches in the output. -/
theorem claim_C6_success_policy :
    (∀ completed : List Completed,
      runExit completed ≠ 0 ↔ ∀ fb ∈ completed, batchBlock fb = none) ∧
    (∀ (completed : List Completed) (fb : Completed) (out : PyStr),
      fb ∈ completed → fb.2 = .ok out → match_results out fb.1 ≠ [] →
      runExit completed = 0 ∧
      match_results out fb.1 ∈ (runMain completed).blocks) := by
  constructor
  · intro completed
    unfold runExit
    rw [(runMain_decomp completed).1]
    by_cases hnil : completed.filterMap batchBlock = []
    · rw [if_neg (by simpa using hnil)]
      simpa [hnil] using List.filterMap_eq_nil_iff.mp hnil
    · rw [if_pos (by simpa using hnil)]
      constructor
      · intro h; exact absurd rfl h
      · intro hall
        exact absurd (List.filterMap_eq_nil_iff.mpr hall) hnil
  · intro completed fb out hmem hok hne
    have hsome : batchBlock fb = some (match_results out fb.1) := by
      unfold batchBlock
      rw [hok]
      simp [hne]
    have hblk : match_results out fb.1 ∈ (runMain completed).blocks := by
      rw [(runMain_decomp completed).1]
      exact List.mem_filterMap.mpr ⟨fb, hmem, hsome⟩
    refine ⟨?_, hblk⟩
    unfold runExit
    rw [if_pos (List.ne_nil_of_mem hblk)]

/-- Witness for C6 at the Scenario-4 run. -/
theorem claim_C6_success_policy_witness :
    (runExit scenario4 ≠ 0 ↔ ∀ fb ∈ scenario4, batchBlock fb = none) ∧
    (runExit scenario4 = 0 ∧
      match_results ['a'] [⟨['f'], ['a'], 0⟩] ∈ (runMain scenario4).blocks) :=
  ⟨claim_C6_success_policy.1 scenario4,
   claim_C6_success_policy.2 scenario4 ([⟨['f'], ['a'], 0⟩], .ok ['a']) ['a']
     (by simp [scenario4]) rfl (by decide)⟩

end Vibegrep
